import Mathlib

/-!
Verification of the real-time data synchronization subsystem of the
quantamental dashboard: the client-side reconciliation store with its
render-tick batched update scheduler (`src/stores/StockDataStore.ts`),
the WebSocket connection manager with exponential-backoff reconnect
(`src/stores/WebSocketStore.ts`), the server-side market simulator
(`MarketSimulator`), and the broadcaster's snapshot-on-accept ordering.

Numeric fields of the source (JavaScript IEEE-754 doubles) are embedded
as rationals; the properties verified here are structural (key sets,
field frames, counts, scheduling invariants) and do not depend on
floating-point rounding.
-/

namespace QDash

/-- `StockData` (`src/types/Stock.ts`): the complete per-entity record.
Optional TypeScript fields (`openPrice?`, `avgVolume?`, `volatility?`)
become `Option ℚ`. -/
structure StockData where
  symbol : String
  name : String
  sector : String
  growthScore : ℚ
  valueScore : ℚ
  qualityScore : ℚ
  momentumScore : ℚ
  price : ℚ
  changePercent : ℚ
  volume : ℚ
  marketCap : ℚ
  pe : ℚ
  pb : ℚ
  ps : ℚ
  evEbitda : ℚ
  roe : ℚ
  roa : ℚ
  debtToEquity : ℚ
  currentRatio : ℚ
  quickRatio : ℚ
  grossMargin : ℚ
  operatingMargin : ℚ
  netMargin : ℚ
  ebitdaMargin : ℚ
  revenueGrowth : ℚ
  earningsGrowth : ℚ
  epsGrowth : ℚ
  dividendYield : ℚ
  beta : ℚ
  openPrice : Option ℚ := none
  avgVolume : Option ℚ := none
  volatility : Option ℚ := none
deriving DecidableEq

/-- `StockUpdate` (`src/types/Stock.ts`): a delta carrying the key and the
optional fast-changing fields. An absent optional field is `none`. -/
structure StockUpdate where
  symbol : String
  price : Option ℚ := none
  changePercent : Option ℚ := none
  volume : Option ℚ := none
  momentumScore : Option ℚ := none
deriving DecidableEq

/-- A JavaScript `Map<String, β>` as an insertion-ordered association
list with pairwise-distinct keys maintained by `mset`. -/
abbrev JsMap (β : Type) := List (String × β)

/-- `Map.get`: first binding of the key, if any. -/
def mget {β : Type} : JsMap β → String → Option β
  | [], _ => none
  | p :: rest, k => if p.1 = k then some p.2 else mget rest k

/-- `Map.set`: replace the binding in place if the key exists, otherwise
append a new binding (JS `Map` insertion-order semantics). -/
def mset {β : Type} : JsMap β → String → β → JsMap β
  | [], k, v => [(k, v)]
  | p :: rest, k, v => if p.1 = k then (k, v) :: rest else p :: mset rest k v

/-- `Map.has` as a decidable proposition. -/
def mhas {β : Type} (m : JsMap β) (k : String) : Prop := (mget m k).isSome = true

instance {β : Type} (m : JsMap β) (k : String) : Decidable (mhas m k) := by
  unfold mhas; infer_instance

/-- The map's key list (insertion order). -/
def mkeys {β : Type} (m : JsMap β) : List String := m.map Prod.fst

theorem mget_mset_self {β : Type} (m : JsMap β) (k : String) (v : β) :
    mget (mset m k v) k = some v := by
  induction m with
  | nil => simp [mget, mset]
  | cons p rest ih =>
      by_cases h : p.1 = k
      · simp [mset, h, mget]
      · simp [mset, h, mget, ih]

theorem mget_mset_ne {β : Type} (m : JsMap β) (k k' : String) (v : β)
    (h : k' ≠ k) : mget (mset m k v) k' = mget m k' := by
  have hne : k ≠ k' := fun hh => h hh.symm
  induction m with
  | nil => simp [mget, mset, hne]
  | cons p rest ih =>
      by_cases hp : p.1 = k
      · subst hp
        simp [mset, mget, hne]
      · simp [mset, hp, mget, ih]

theorem mkeys_mset_of_mem {β : Type} (m : JsMap β) (k : String) (v : β)
    (h : mhas m k) : mkeys (mset m k v) = mkeys m := by
  induction m with
  | nil => simp [mhas, mget] at h
  | cons p rest ih =>
      by_cases hp : p.1 = k
      · simp [mset, hp, mkeys]
      · simp only [mhas, mget, hp, if_false] at h
        simp [mset, hp, mkeys] at ih ⊢
        exact ih h

theorem mkeys_mset_of_not_mem {β : Type} (m : JsMap β) (k : String) (v : β)
    (h : ¬ mhas m k) : mkeys (mset m k v) = mkeys m ++ [k] := by
  induction m with
  | nil => simp [mset, mkeys]
  | cons p rest ih =>
      by_cases hp : p.1 = k
      · exact absurd (by simp [mhas, mget, hp]) h
      · simp only [mhas, mget, hp, if_false] at h
        simp [mset, hp, mkeys] at ih ⊢
        exact ih h

theorem mhas_iff_mem_mkeys {β : Type} (m : JsMap β) (k : String) :
    mhas m k ↔ k ∈ mkeys m := by
  induction m with
  | nil => simp [mhas, mget, mkeys]
  | cons p rest ih =>
      by_cases hp : p.1 = k
      · simp [mhas, mget, hp, mkeys]
      · simp only [mhas, mget, hp, if_false, mkeys, List.map_cons, List.mem_cons]
        rw [mhas] at ih
        rw [ih]
        constructor
        · exact Or.inr
        · rintro (h | h)
          · exact absurd h.symm hp
          · exact h

/-- The Zustand state of `StockDataStore.ts`: the stocks map and the
last-updated timestamp. -/
structure StoreState where
  stocks : JsMap StockData
  lastUpdated : Option Nat
deriving DecidableEq

def initialStoreState : StoreState := { stocks := [], lastUpdated := none }

/-- Body of `setStocks`: build a fresh `Map` keyed by each entity's own
`symbol` (`stockMap.set(stock.symbol, stock)` over the input list). -/
def buildStockMap (stocks : List StockData) : JsMap StockData :=
  stocks.foldl (fun m s => mset m s.symbol s) []

/-- `setStocks(stocks)` — the previous state is discarded wholesale;
`now` stands for `Date.now()`. -/
def setStocks (stocks : List StockData) (now : Nat) (_st : StoreState) : StoreState :=
  { stocks := buildStockMap stocks, lastUpdated := some now }

/-- The spread `{...existing, ...update}` in `updateStocksImmediate`:
fields present in the update override, absent fields keep the existing
value. -/
def mergeUpdate (existing : StockData) (u : StockUpdate) : StockData :=
  { existing with
    symbol := u.symbol
    price := u.price.getD existing.price
    changePercent := u.changePercent.getD existing.changePercent
    volume := u.volume.getD existing.volume
    momentumScore := u.momentumScore.getD existing.momentumScore }

/-- One iteration of the `updateStocksImmediate` loop: merge the delta
into the entry with its symbol if present, otherwise ignore it. -/
def applyUpdate (m : JsMap StockData) (u : StockUpdate) : JsMap StockData :=
  match mget m u.symbol with
  | some existing => mset m u.symbol (mergeUpdate existing u)
  | none => m

/-- The whole `updateStocksImmediate` loop over the copied map. -/
def applyUpdates (m : JsMap StockData) (updates : List StockUpdate) : JsMap StockData :=
  updates.foldl applyUpdate m

/-- `updateStocksImmediate(updates)`; `now` stands for `Date.now()`. -/
def updateStocksImmediate (updates : List StockUpdate) (now : Nat) (st : StoreState) :
    StoreState :=
  { stocks := applyUpdates st.stocks updates, lastUpdated := some now }

theorem applyUpdates_append (m : JsMap StockData) (us vs : List StockUpdate) :
    applyUpdates m (us ++ vs) = applyUpdates (applyUpdates m us) vs :=
  List.foldl_append ..

theorem mhas_mset {β : Type} (m : JsMap β) (k k' : String) (v : β) :
    mhas (mset m k v) k' ↔ k' = k ∨ mhas m k' := by
  by_cases h : k' = k
  · subst h
    simp [mhas, mget_mset_self]
  · rw [mhas, mget_mset_ne m k k' v h]
    simp [mhas, h]

/-- A delta whose key is absent leaves the map untouched. -/
theorem applyUpdate_of_not_mhas (m : JsMap StockData) (u : StockUpdate)
    (h : ¬ mhas m u.symbol) : applyUpdate m u = m := by
  have : mget m u.symbol = none := by
    cases hg : mget m u.symbol with
    | none => rfl
    | some ex => exact absurd (by rw [mhas, hg]; rfl) h
  simp [applyUpdate, this]

/-- `applyUpdate` never changes the key list: it either replaces an
existing binding in place or does nothing. -/
theorem mkeys_applyUpdate (m : JsMap StockData) (u : StockUpdate) :
    mkeys (applyUpdate m u) = mkeys m := by
  cases hg : mget m u.symbol with
  | none => simp [applyUpdate, hg]
  | some ex =>
      have hh : mhas m u.symbol := by rw [mhas, hg]; rfl
      simp [applyUpdate, hg, mkeys_mset_of_mem m u.symbol _ hh]

theorem mkeys_applyUpdates (m : JsMap StockData) (us : List StockUpdate) :
    mkeys (applyUpdates m us) = mkeys m := by
  induction us generalizing m with
  | nil => rfl
  | cons u rest ih =>
      rw [applyUpdates, List.foldl_cons, ← applyUpdates, ih, mkeys_applyUpdate]

/-- Fold step of `buildStockMap`: keys not among the remaining symbols
keep their binding. -/
theorem buildStockMap_go_get_of_not_mem (l : List StockData) (acc : JsMap StockData)
    (k : String) (h : k ∉ l.map StockData.symbol) :
    mget (l.foldl (fun m s => mset m s.symbol s) acc) k = mget acc k := by
  induction l generalizing acc with
  | nil => rfl
  | cons s rest ih =>
      simp only [List.map_cons, List.mem_cons, not_or] at h
      rw [List.foldl_cons, ih _ h.2, mget_mset_ne _ _ _ _ h.1]

theorem buildStockMap_go_get_self (l : List StockData) (acc : JsMap StockData)
    (hnd : (l.map StockData.symbol).Nodup) :
    ∀ s ∈ l, mget (l.foldl (fun m s => mset m s.symbol s) acc) s.symbol = some s := by
  induction l generalizing acc with
  | nil => intro s hs; cases hs
  | cons s₀ rest ih =>
      simp only [List.map_cons, List.nodup_cons] at hnd
      intro s hs
      rcases List.mem_cons.mp hs with h | h
      · subst h
        rw [List.foldl_cons, buildStockMap_go_get_of_not_mem rest _ _ hnd.1,
          mget_mset_self]
      · exact ih _ hnd.2 s h

theorem buildStockMap_go_mkeys (l : List StockData) (acc : JsMap StockData)
    (hfresh : ∀ s ∈ l, s.symbol ∉ mkeys acc)
    (hnd : (l.map StockData.symbol).Nodup) :
    mkeys (l.foldl (fun m s => mset m s.symbol s) acc)
      = mkeys acc ++ l.map StockData.symbol := by
  induction l generalizing acc with
  | nil => simp
  | cons s₀ rest ih =>
      simp only [List.map_cons, List.nodup_cons] at hnd
      have h₀ : ¬ mhas acc s₀.symbol := by
        rw [mhas_iff_mem_mkeys]
        exact hfresh s₀ (List.mem_cons_self _ _)
      rw [List.foldl_cons, ih _ ?_ hnd.2, mkeys_mset_of_not_mem acc _ _ h₀,
        List.append_assoc, List.singleton_append]
      · simp
      · intro s hs
        rw [mkeys_mset_of_not_mem acc _ _ h₀]
        simp only [List.mem_append, List.mem_singleton, not_or]
        exact ⟨hfresh s (List.mem_cons_of_mem _ hs),
          fun hh => hnd.1 (hh ▸ List.mem_map_of_mem StockData.symbol hs)⟩

theorem buildStockMap_mhas (l : List StockData) (k : String) :
    mhas (buildStockMap l) k ↔ k ∈ l.map StockData.symbol := by
  suffices h : ∀ acc, mhas (l.foldl (fun m s => mset m s.symbol s) acc) k
      ↔ mhas acc k ∨ k ∈ l.map StockData.symbol by
    rw [buildStockMap, h []]
    simp [mhas, mget]
  induction l with
  | nil => simp
  | cons s₀ rest ih =>
      intro acc
      rw [List.foldl_cons, ih, mhas_mset]
      simp only [List.map_cons, List.mem_cons]
      tauto

/-- A concrete entity used to evaluate theorems on closed inputs. -/
def sampleStock (sym : String) (p : ℚ) : StockData :=
  { symbol := sym, name := sym, sector := "Technology",
    growthScore := 50, valueScore := 50, qualityScore := 50, momentumScore := 50,
    price := p, changePercent := 0, volume := 1000,
    marketCap := 5000000000, pe := 10, pb := 1, ps := 2, evEbitda := 8,
    roe := 1, roa := 1, debtToEquity := 1, currentRatio := 2, quickRatio := 1,
    grossMargin := 1, operatingMargin := 1, netMargin := 1, ebitdaMargin := 1,
    revenueGrowth := 1, earningsGrowth := 1, epsGrowth := 1,
    dividendYield := 1, beta := 1 }

/-- C3: `setStocks` replaces the store's entire key set atomically with
exactly the keys of the given snapshot list: membership in the new map
coincides with membership in the snapshot's symbol list; with
pairwise-distinct snapshot symbols the key list equals the snapshot's
symbol list and every entity is stored under its own symbol with exactly
the snapshot's field values; and the result does not depend on the
previous store state (no merge). -/
theorem C3_setStocks_replaces_key_set (st st' : StoreState) (l : List StockData)
    (now : Nat) (hnd : (l.map StockData.symbol).Nodup) :
    (∀ k, mhas (setStocks l now st).stocks k ↔ k ∈ l.map StockData.symbol) ∧
    mkeys (setStocks l now st).stocks = l.map StockData.symbol ∧
    (∀ s ∈ l, mget (setStocks l now st).stocks s.symbol = some s) ∧
    (setStocks l now st).stocks = (setStocks l now st').stocks := by
  refine ⟨fun k => buildStockMap_mhas l k, ?_, ?_, rfl⟩
  · have h := buildStockMap_go_mkeys l [] (by intro s _; simp [mkeys]) hnd
    simpa [setStocks, buildStockMap, mkeys] using h
  · exact fun s hs => buildStockMap_go_get_self l [] hnd s hs

theorem C3_setStocks_replaces_key_set_witness :
    (([sampleStock "A" 1, sampleStock "B" 2].map StockData.symbol).Nodup) ∧
    (∀ s ∈ [sampleStock "A" 1, sampleStock "B" 2],
      mget (setStocks [sampleStock "A" 1, sampleStock "B" 2] 7 initialStoreState).stocks
        s.symbol = some s) :=
  ⟨by decide,
    (C3_setStocks_replaces_key_set initialStoreState initialStoreState
      [sampleStock "A" 1, sampleStock "B" 2] 7 (by decide)).2.2.1⟩

/-- C4: applying a delta for an existing key via `updateStocksImmediate`
is a field-level merge: all other map entries are untouched and the key
list is unchanged; the target entity becomes `mergeUpdate ex u`, whose
identity and slow-changing fields all equal the existing entity's, and
whose fast-changing fields take the delta's value exactly when present
in the delta and keep the existing value when absent. -/
theorem C4_delta_field_merge (st : StoreState) (u : StockUpdate) (ex : StockData)
    (now : Nat) (hex : mget st.stocks u.symbol = some ex) :
    (∀ k, k ≠ u.symbol →
      mget (updateStocksImmediate [u] now st).stocks k = mget st.stocks k) ∧
    mkeys (updateStocksImmediate [u] now st).stocks = mkeys st.stocks ∧
    mget (updateStocksImmediate [u] now st).stocks u.symbol
      = some (mergeUpdate ex u) ∧
    (mergeUpdate ex u).name = ex.name ∧
    (mergeUpdate ex u).sector = ex.sector ∧
    (mergeUpdate ex u).growthScore = ex.growthScore ∧
    (mergeUpdate ex u).valueScore = ex.valueScore ∧
    (mergeUpdate ex u).qualityScore = ex.qualityScore ∧
    (mergeUpdate ex u).marketCap = ex.marketCap ∧
    (mergeUpdate ex u).pe = ex.pe ∧
    (mergeUpdate ex u).pb = ex.pb ∧
    (mergeUpdate ex u).ps = ex.ps ∧
    (mergeUpdate ex u).evEbitda = ex.evEbitda ∧
    (mergeUpdate ex u).roe = ex.roe ∧
    (mergeUpdate ex u).roa = ex.roa ∧
    (mergeUpdate ex u).debtToEquity = ex.debtToEquity ∧
    (mergeUpdate ex u).currentRatio = ex.currentRatio ∧
    (mergeUpdate ex u).quickRatio = ex.quickRatio ∧
    (mergeUpdate ex u).grossMargin = ex.grossMargin ∧
    (mergeUpdate ex u).operatingMargin = ex.operatingMargin ∧
    (mergeUpdate ex u).netMargin = ex.netMargin ∧
    (mergeUpdate ex u).ebitdaMargin = ex.ebitdaMargin ∧
    (mergeUpdate ex u).revenueGrowth = ex.revenueGrowth ∧
    (mergeUpdate ex u).earningsGrowth = ex.earningsGrowth ∧
    (mergeUpdate ex u).epsGrowth = ex.epsGrowth ∧
    (mergeUpdate ex u).dividendYield = ex.dividendYield ∧
    (mergeUpdate ex u).beta = ex.beta ∧
    (mergeUpdate ex u).openPrice = ex.openPrice ∧
    (mergeUpdate ex u).avgVolume = ex.avgVolume ∧
    (mergeUpdate ex u).volatility = ex.volatility ∧
    (u.price = none → (mergeUpdate ex u).price = ex.price) ∧
    (∀ q, u.price = some q → (mergeUpdate ex u).price = q) ∧
    (u.changePercent = none → (mergeUpdate ex u).changePercent = ex.changePercent) ∧
    (∀ q, u.changePercent = some q → (mergeUpdate ex u).changePercent = q) ∧
    (u.volume = none → (mergeUpdate ex u).volume = ex.volume) ∧
    (∀ q, u.volume = some q → (mergeUpdate ex u).volume = q) ∧
    (u.momentumScore = none → (mergeUpdate ex u).momentumScore = ex.momentumScore) ∧
    (∀ q, u.momentumScore = some q → (mergeUpdate ex u).momentumScore = q) := by
  have hm : (updateStocksImmediate [u] now st).stocks
      = mset st.stocks u.symbol (mergeUpdate ex u) := by
    simp [updateStocksImmediate, applyUpdates, applyUpdate, hex]
  have hh : mhas st.stocks u.symbol := by rw [mhas, hex]; rfl
  refine ⟨fun k hk => by rw [hm, mget_mset_ne _ _ _ _ hk],
    by rw [hm, mkeys_mset_of_mem _ _ _ hh],
    by rw [hm, mget_mset_self],
    rfl, rfl, rfl, rfl, rfl, rfl, rfl, rfl, rfl, rfl, rfl, rfl, rfl, rfl, rfl, rfl,
    rfl, rfl, rfl, rfl, rfl, rfl, rfl, rfl, rfl, rfl, rfl,
    fun h => by simp [mergeUpdate, h], fun q h => by simp [mergeUpdate, h],
    fun h => by simp [mergeUpdate, h], fun q h => by simp [mergeUpdate, h],
    fun h => by simp [mergeUpdate, h], fun q h => by simp [mergeUpdate, h],
    fun h => by simp [mergeUpdate, h], fun q h => by simp [mergeUpdate, h]⟩

theorem C4_delta_field_merge_witness :
    (mget (setStocks [sampleStock "A" 1, sampleStock "B" 2, sampleStock "C" 3] 0
        initialStoreState).stocks
      (StockUpdate.symbol { symbol := "B", price := some 10 })
      = some (sampleStock "B" 2)) ∧
    mget (updateStocksImmediate [{ symbol := "B", price := some 10 }] 1
        (setStocks [sampleStock "A" 1, sampleStock "B" 2, sampleStock "C" 3] 0
          initialStoreState)).stocks
      (StockUpdate.symbol { symbol := "B", price := some 10 })
      = some (mergeUpdate (sampleStock "B" 2) { symbol := "B", price := some 10 }) :=
  ⟨by decide,
    (C4_delta_field_merge
      (setStocks [sampleStock "A" 1, sampleStock "B" 2, sampleStock "C" 3] 0
        initialStoreState)
      { symbol := "B", price := some 10 } (sampleStock "B" 2) 1 (by decide)).2.2.1⟩

/-- C5: a batch of deltas none of whose symbols is a key of the store is
silently ignored by `updateStocksImmediate`: the stocks map is exactly
unchanged, hence the key set is unchanged and no placeholder entity is
created. -/
theorem C5_unknown_deltas_ignored (st : StoreState) (us : List StockUpdate) (now : Nat)
    (h : ∀ u ∈ us, ¬ mhas st.stocks u.symbol) :
    (updateStocksImmediate us now st).stocks = st.stocks ∧
    mkeys (updateStocksImmediate us now st).stocks = mkeys st.stocks := by
  have hmap : ∀ (vs : List StockUpdate), (∀ u ∈ vs, ¬ mhas st.stocks u.symbol) →
      applyUpdates st.stocks vs = st.stocks := by
    intro vs
    induction vs with
    | nil => intro _; rfl
    | cons u rest ih =>
        intro hv
        rw [applyUpdates, List.foldl_cons,
          applyUpdate_of_not_mhas _ _ (hv u (List.mem_cons_self _ _)), ← applyUpdates]
        exact ih (fun v hvv => hv v (List.mem_cons_of_mem _ hvv))
  have := hmap us h
  exact ⟨by rw [updateStocksImmediate]; exact this, by
    rw [updateStocksImmediate]; exact congrArg mkeys this⟩

theorem C5_unknown_deltas_ignored_witness :
    (∀ u ∈ [({ symbol := "Z", price := some 10 } : StockUpdate)],
      ¬ mhas (setStocks [sampleStock "A" 1] 0 initialStoreState).stocks u.symbol) ∧
    (updateStocksImmediate [({ symbol := "Z", price := some 10 } : StockUpdate)] 1
        (setStocks [sampleStock "A" 1] 0 initialStoreState)).stocks
      = (setStocks [sampleStock "A" 1] 0 initialStoreState).stocks :=
  ⟨by decide,
    (C5_unknown_deltas_ignored (setStocks [sampleStock "A" 1] 0 initialStoreState)
      [{ symbol := "Z", price := some 10 }] 1 (by decide)).1⟩

/-- The module-level batching state of `StockDataStore.ts` (`updateQueue`
and `rafId`) together with the store state. `pendingCallbacks` is a ghost
count of flush callbacks currently registered with the host's
`requestAnimationFrame`; `nextRaf` is the id the host assigns next. -/
structure SchedState where
  store : StoreState
  updateQueue : List StockUpdate
  rafId : Option Nat
  pendingCallbacks : Nat
  nextRaf : Nat
deriving DecidableEq

/-- Fresh module state: empty queue, no scheduled flush. -/
def initSched (st : StoreState) : SchedState :=
  { store := st, updateQueue := [], rafId := none, pendingCallbacks := 0, nextRaf := 1 }

/-- `updateStocks(updates)`: push the deltas onto the queue, then register
one flush callback with the host only if `rafId === null`. -/
def enqueueStep (us : List StockUpdate) (s : SchedState) : SchedState :=
  match s.rafId with
  | none =>
      { s with
        updateQueue := s.updateQueue ++ us
        rafId := some s.nextRaf
        pendingCallbacks := s.pendingCallbacks + 1
        nextRaf := s.nextRaf + 1 }
  | some _ => { s with updateQueue := s.updateQueue ++ us }

/-- The registered callback firing on an animation frame: apply the whole
queue through `updateStocksImmediate`, clear the queue, reset `rafId` to
`null`. With no callback registered, nothing can fire. -/
def flushStep (now : Nat) (s : SchedState) : SchedState :=
  if s.pendingCallbacks = 0 then s
  else
    { store := updateStocksImmediate s.updateQueue now s.store,
      updateQueue := [], rafId := none,
      pendingCallbacks := s.pendingCallbacks - 1, nextRaf := s.nextRaf }

inductive SchedEvent where
  | enqueue (us : List StockUpdate)
  | flush (now : Nat)
deriving DecidableEq

def schedStep (s : SchedState) : SchedEvent → SchedState
  | .enqueue us => enqueueStep us s
  | .flush now => flushStep now s

def schedRun (s : SchedState) (es : List SchedEvent) : SchedState :=
  es.foldl schedStep s

/-- The anti-thrash invariant: a callback is registered with the host
exactly when `rafId` is set, and there is never more than one. -/
def schedInv (s : SchedState) : Prop :=
  s.pendingCallbacks = (if s.rafId.isSome then 1 else 0)

theorem schedInv_step (s : SchedState) (e : SchedEvent) (h : schedInv s) :
    schedInv (schedStep s e) := by
  cases e with
  | enqueue us =>
      rw [schedInv] at h
      cases hr : s.rafId with
      | none =>
          rw [hr] at h
          simp only [Option.isSome_none, Bool.false_eq_true, if_false] at h
          simp [schedStep, enqueueStep, hr, schedInv, h]
      | some i =>
          rw [hr] at h
          simp only [Option.isSome_some, if_true] at h
          simp [schedStep, enqueueStep, hr, schedInv, h]
  | flush now =>
      by_cases hp : s.pendingCallbacks = 0
      · simpa [schedStep, flushStep, hp, schedInv] using h
      · have h1 : s.pendingCallbacks = 1 := by
          rw [schedInv] at h
          by_cases hr : s.rafId.isSome = true
          · simpa [hr] using h
          · rw [if_neg hr] at h; exact absurd h hp
        simp [schedStep, flushStep, hp, schedInv, h1]

theorem schedInv_run (s : SchedState) (es : List SchedEvent) (h : schedInv s) :
    schedInv (schedRun s es) := by
  induction es generalizing s with
  | nil => exact h
  | cons e rest ih =>
      rw [schedRun, List.foldl_cons, ← schedRun]
      exact ih _ (schedInv_step s e h)

/-- C1: along every sequence of enqueues and flushes from a fresh module
state, at most one flush callback is registered with the host at any
time — exactly one when `rafId` is set, none otherwise. Moreover, at any
state an enqueue registers a new callback exactly when none is
registered (afterwards one is always registered), and a firing flush is
what clears `rafId`. -/
theorem C1_at_most_one_scheduled_flush (st : StoreState) (es : List SchedEvent) :
    (schedRun (initSched st) es).pendingCallbacks
        = (if (schedRun (initSched st) es).rafId.isSome then 1 else 0) ∧
    (schedRun (initSched st) es).pendingCallbacks ≤ 1 ∧
    (∀ s us, (enqueueStep us s).pendingCallbacks
        = s.pendingCallbacks + (if s.rafId.isSome then 0 else 1)) ∧
    (∀ s us, (enqueueStep us s).rafId.isSome = true) ∧
    (∀ s now, (flushStep now s).rafId
        = (if s.pendingCallbacks = 0 then s.rafId else none)) := by
  have hinv : schedInv (schedRun (initSched st) es) :=
    schedInv_run _ es (by simp [schedInv, initSched])
  refine ⟨hinv, ?_, ?_, ?_, ?_⟩
  · rw [hinv]
    split <;> omega
  · intro s us
    cases hr : s.rafId <;> simp [enqueueStep, hr]
  · intro s us
    cases hr : s.rafId <;> simp [enqueueStep, hr]
  · intro s now
    by_cases hp : s.pendingCallbacks = 0 <;> simp [flushStep, hp]

/-- Applying a list of deltas in one pass is the same fold as applying
them one at a time. -/
theorem applyUpdates_eq_one_at_a_time (m : JsMap StockData) (us : List StockUpdate) :
    applyUpdates m us = us.foldl (fun mm u => applyUpdates mm [u]) m := rfl

/-- One-at-a-time application through `updateStocksImmediate` acts on the
stocks map as the plain fold of the loop body. -/
theorem stocks_one_at_a_time (st : StoreState) (tick : Nat) (us : List StockUpdate) :
    (us.foldl (fun acc u => updateStocksImmediate [u] tick acc) st).stocks
      = applyUpdates st.stocks us := by
  induction us generalizing st with
  | nil => rfl
  | cons u rest ih =>
      rw [List.foldl_cons, ih]
      rfl

/-- Running only enqueues leaves the store untouched and concatenates the
batches onto the queue in arrival order. -/
theorem schedRun_append (s : SchedState) (es fs : List SchedEvent) :
    schedRun s (es ++ fs) = schedRun (schedRun s es) fs :=
  List.foldl_append ..

theorem flushStep_fires (now : Nat) (s : SchedState) (h : s.pendingCallbacks ≠ 0) :
    (flushStep now s).store = updateStocksImmediate s.updateQueue now s.store := by
  rw [flushStep, if_neg h]

theorem schedRun_enqueues (lss : List (List StockUpdate)) (s : SchedState) :
    (schedRun s (lss.map SchedEvent.enqueue)).store = s.store ∧
    (schedRun s (lss.map SchedEvent.enqueue)).updateQueue
      = s.updateQueue ++ lss.flatten := by
  induction lss generalizing s with
  | nil => simp [schedRun]
  | cons l rest ih =>
      rw [List.map_cons, schedRun, List.foldl_cons, ← schedRun]
      have h := ih (schedStep s (SchedEvent.enqueue l))
      have hstep : (schedStep s (SchedEvent.enqueue l)).store = s.store ∧
          (schedStep s (SchedEvent.enqueue l)).updateQueue = s.updateQueue ++ l := by
        cases hr : s.rafId <;> simp [schedStep, enqueueStep, hr]
      refine ⟨h.1.trans hstep.1, ?_⟩
      rw [h.2, hstep.2, List.flatten_cons, List.append_assoc]

/-- After at least one enqueue from an invariant state, exactly one flush
callback is outstanding. -/
theorem schedRun_enqueues_pending (l : List StockUpdate)
    (lss : List (List StockUpdate)) (s : SchedState) (h : schedInv s) :
    (schedRun s ((l :: lss).map SchedEvent.enqueue)).pendingCallbacks = 1 := by
  induction lss generalizing s l with
  | nil =>
      rw [schedInv] at h
      cases hr : s.rafId with
      | none =>
          rw [hr] at h
          simp only [Option.isSome_none, Bool.false_eq_true, if_false] at h
          simp [schedRun, schedStep, enqueueStep, hr, h]
      | some i =>
          rw [hr] at h
          simp only [Option.isSome_some, if_true] at h
          simp [schedRun, schedStep, enqueueStep, hr, h]
  | cons l' rest ih =>
      rw [List.map_cons, schedRun, List.foldl_cons, ← schedRun]
      exact ih l' _ (schedInv_step s (SchedEvent.enqueue l) h)

/-- C2: enqueuing any number of delta batches into a fresh scheduler and
then letting the single scheduled flush fire yields the same stocks map
as applying the same deltas one at a time, in arrival order, through
`updateStocksImmediate`. -/
theorem C2_batched_flush_refines_one_at_a_time (st : StoreState)
    (lss : List (List StockUpdate)) (now tick : Nat) :
    (schedRun (initSched st)
        (lss.map SchedEvent.enqueue ++ [SchedEvent.flush now])).store.stocks
      = (lss.flatten.foldl (fun acc u => updateStocksImmediate [u] tick acc) st).stocks := by
  rw [stocks_one_at_a_time, schedRun_append]
  cases lss with
  | nil =>
      simp [schedRun, initSched, schedStep, flushStep, applyUpdates]
  | cons l rest =>
      have hq := schedRun_enqueues (l :: rest) (initSched st)
      have hp := schedRun_enqueues_pending l rest (initSched st)
        (by simp [schedInv, initSched])
      set s' := schedRun (initSched st) ((l :: rest).map SchedEvent.enqueue) with hs'
      rw [schedRun, List.foldl_cons, List.foldl_nil]
      show (flushStep now s').store.stocks = _
      rw [flushStep_fires now s' (by rw [hp]; exact one_ne_zero)]
      show applyUpdates s'.store.stocks s'.updateQueue = _
      rw [hq.1, hq.2]
      rfl

inductive ConnStatus where
  | disconnected | connecting | connected | error
deriving DecidableEq

/-- The Zustand state of `WebSocketStore.ts` plus ghost fields:
`pendingTimers` lists the delays of reconnect timers currently scheduled
through `setTimeout`, and `connAttempts` counts `new WebSocket(url)`
constructions. `wsPresent` models `ws !== null`. -/
structure WSState where
  wsPresent : Bool
  status : ConnStatus
  reconnectAttempts : Nat
  shouldReconnect : Bool
  pendingTimers : List Nat
  connAttempts : Nat
deriving DecidableEq

def initWSState : WSState :=
  { wsPresent := false, status := .disconnected, reconnectAttempts := 0,
    shouldReconnect := true, pendingTimers := [], connAttempts := 0 }

def BASE_RECONNECT_DELAY : Nat := 3000

def MAX_RECONNECT_DELAY : Nat := 30000

/-- The delay computed in `ws.onclose`:
`Math.min(BASE_RECONNECT_DELAY * Math.pow(2, attempts - 1), MAX_RECONNECT_DELAY)`. -/
def reconnectDelay (attempts : Nat) : Nat :=
  min (BASE_RECONNECT_DELAY * 2 ^ (attempts - 1)) MAX_RECONNECT_DELAY

inductive WEvent where
  | connect | wsOpen | wsClose | wsError | timerFire | disconnect
deriving DecidableEq

/-- `connect(url)`: a no-op while connected or connecting; otherwise set
`connecting`, re-enable auto-reconnect and construct a new WebSocket. -/
def connectStep (s : WSState) : WSState :=
  if s.status = .connected ∨ s.status = .connecting then s
  else
    { s with
      status := .connecting
      shouldReconnect := true
      wsPresent := true
      connAttempts := s.connAttempts + 1 }

/-- One transition of the connection manager per handler in
`WebSocketStore.ts`: `connect`, `ws.onopen`, `ws.onclose` (scheduling a
backoff timer only when `shouldReconnect`), `ws.onerror`, the
`setTimeout` callback (which re-checks `shouldReconnect` before calling
`connect`), and `disconnect()`. -/
def wstep (s : WSState) : WEvent → WSState
  | .connect => connectStep s
  | .wsOpen => { s with status := .connected, reconnectAttempts := 0 }
  | .wsClose =>
      if s.shouldReconnect then
        { s with
          wsPresent := false
          status := .disconnected
          reconnectAttempts := s.reconnectAttempts + 1
          pendingTimers :=
            s.pendingTimers ++ [reconnectDelay (s.reconnectAttempts + 1)] }
      else { s with wsPresent := false, status := .disconnected }
  | .wsError => { s with status := .error }
  | .timerFire =>
      let s₁ := { s with pendingTimers := s.pendingTimers.tail }
      if s₁.shouldReconnect then connectStep s₁ else s₁
  | .disconnect =>
      { s with
        shouldReconnect := false
        wsPresent := false
        status := .disconnected
        reconnectAttempts := 0 }

def wrun (s : WSState) (es : List WEvent) : WSState := es.foldl wstep s

/-- C6 counterexample: the claim says the attempt counter is incremented
on every closed connection, but after an explicit `disconnect()` the
close event leaves the counter at zero rather than incrementing it. -/
theorem C6_close_after_disconnect_no_increment :
    (wstep (wrun initWSState [.connect, .wsOpen, .disconnect]) .wsClose).reconnectAttempts
        = 0 ∧
    ¬ ((wstep (wrun initWSState [.connect, .wsOpen, .disconnect])
          .wsClose).reconnectAttempts
        = (wrun initWSState [.connect, .wsOpen, .disconnect]).reconnectAttempts + 1) := by
  decide

/-- C6 (amended): when auto-reconnect is enabled, a close event
increments the attempt counter and schedules a timer whose delay is
`min(3000·2^(k-1), 30000)` ms for the new attempt number `k` — so
attempts 1, 2, 3 wait 3000, 6000, 12000 ms and attempt 5 waits the
capped 30000 ms; a close event after an explicit disconnect leaves the
counter unchanged (the disconnect itself resets it to zero), and a
successful open resets it to zero. -/
theorem C6_reconnect_backoff (s : WSState) (h : s.shouldReconnect = true) :
    (wstep s .wsClose).reconnectAttempts = s.reconnectAttempts + 1 ∧
    (wstep s .wsClose).pendingTimers
      = s.pendingTimers
          ++ [min (3000 * 2 ^ ((s.reconnectAttempts + 1) - 1)) 30000] ∧
    (∀ k, reconnectDelay k = min (3000 * 2 ^ (k - 1)) 30000) ∧
    reconnectDelay 1 = 3000 ∧ reconnectDelay 2 = 6000 ∧
    reconnectDelay 3 = 12000 ∧ reconnectDelay 5 = 30000 ∧
    (∀ t : WSState, t.shouldReconnect = false →
      (wstep t .wsClose).reconnectAttempts = t.reconnectAttempts) ∧
    (∀ t : WSState, (wstep t .wsOpen).reconnectAttempts = 0) ∧
    (∀ t : WSState, (wstep t .disconnect).reconnectAttempts = 0) := by
  refine ⟨by simp [wstep, h], by simp [wstep, h, reconnectDelay,
      BASE_RECONNECT_DELAY, MAX_RECONNECT_DELAY],
    fun k => rfl, by decide, by decide, by decide, by decide,
    fun t ht => by simp [wstep, ht], fun t => rfl, fun t => rfl⟩

theorem C6_reconnect_backoff_witness :
    initWSState.shouldReconnect = true ∧
    (wstep initWSState .wsClose).reconnectAttempts
      = initWSState.reconnectAttempts + 1 :=
  ⟨rfl, (C6_reconnect_backoff initWSState rfl).1⟩

theorem wstep_no_connect (t : WSState) (e : WEvent)
    (ht : t.shouldReconnect = false) (he : e ≠ WEvent.connect) :
    (wstep t e).connAttempts = t.connAttempts ∧
    (wstep t e).shouldReconnect = false := by
  cases e with
  | connect => exact absurd rfl he
  | wsOpen => exact ⟨rfl, ht⟩
  | wsClose =>
      rw [wstep, if_neg (by rw [ht]; exact Bool.false_ne_true)]
      exact ⟨rfl, ht⟩
  | wsError => exact ⟨rfl, ht⟩
  | timerFire => simp [wstep, ht]
  | disconnect => exact ⟨rfl, rfl⟩

/-- C7: `disconnect()` clears the auto-reconnect flag, and from any state
with the flag cleared no sequence of events other than a new `connect()`
call ever constructs a WebSocket — in particular a pending reconnect
timer that fires performs no connection — and the flag stays cleared
throughout. -/
theorem C7_disconnect_suppresses_reconnect (s : WSState) (es : List WEvent)
    (hs : s.shouldReconnect = false) (hes : ∀ e ∈ es, e ≠ WEvent.connect) :
    (wrun s es).connAttempts = s.connAttempts ∧
    (wrun s es).shouldReconnect = false ∧
    (∀ t : WSState, (wstep t .disconnect).shouldReconnect = false) := by
  suffices h : (wrun s es).connAttempts = s.connAttempts ∧
      (wrun s es).shouldReconnect = false from ⟨h.1, h.2, fun t => rfl⟩
  induction es generalizing s with
  | nil => exact ⟨rfl, hs⟩
  | cons e rest ih =>
      have h := wstep_no_connect s e hs (hes e (List.mem_cons_self _ _))
      rw [wrun, List.foldl_cons, ← wrun]
      have hr := ih (wstep s e) h.2 (fun f hf => hes f (List.mem_cons_of_mem _ hf))
      exact ⟨hr.1.trans h.1, hr.2⟩

theorem C7_disconnect_suppresses_reconnect_witness :
    ((wrun initWSState [.connect, .wsOpen, .disconnect]).shouldReconnect = false) ∧
    (∀ e ∈ [WEvent.timerFire, .wsClose, .wsError, .timerFire],
      e ≠ WEvent.connect) ∧
    (wrun (wrun initWSState [.connect, .wsOpen, .disconnect])
        [WEvent.timerFire, .wsClose, .wsError, .timerFire]).connAttempts
      = (wrun initWSState [.connect, .wsOpen, .disconnect]).connAttempts :=
  ⟨by decide, by decide,
    (C7_disconnect_suppresses_reconnect
      (wrun initWSState [.connect, .wsOpen, .disconnect])
      [WEvent.timerFire, .wsClose, .wsError, .timerFire]
      (by decide) (by decide)).1⟩

/-- The map property that every entity sits under its own symbol. -/
def symbolKeyed (m : JsMap StockData) : Prop :=
  ∀ k v, mget m k = some v → v.symbol = k

theorem symbolKeyed_mset (m : JsMap StockData) (k : String) (v : StockData)
    (hm : symbolKeyed m) (hv : v.symbol = k) : symbolKeyed (mset m k v) := by
  intro k' v' h
  by_cases hk : k' = k
  · subst hk
    rw [mget_mset_self] at h
    cases h
    exact hv
  · rw [mget_mset_ne _ _ _ _ hk] at h
    exact hm k' v' h

theorem symbolKeyed_buildStockMap (l : List StockData) :
    symbolKeyed (buildStockMap l) := by
  suffices h : ∀ acc, symbolKeyed acc →
      symbolKeyed (l.foldl (fun m s => mset m s.symbol s) acc) by
    refine h [] ?_
    intro k v hv
    simp [mget] at hv
  induction l with
  | nil => exact fun acc h => h
  | cons s rest ih =>
      intro acc h
      rw [List.foldl_cons]
      exact ih _ (symbolKeyed_mset acc _ _ h rfl)

theorem symbolKeyed_applyUpdate (m : JsMap StockData) (u : StockUpdate)
    (hm : symbolKeyed m) : symbolKeyed (applyUpdate m u) := by
  cases hg : mget m u.symbol with
  | none => rw [applyUpdate, hg]; exact hm
  | some ex => rw [applyUpdate, hg]; exact symbolKeyed_mset m _ _ hm rfl

theorem symbolKeyed_applyUpdates (m : JsMap StockData) (us : List StockUpdate)
    (hm : symbolKeyed m) : symbolKeyed (applyUpdates m us) := by
  induction us generalizing m with
  | nil => exact hm
  | cons u rest ih =>
      rw [applyUpdates, List.foldl_cons, ← applyUpdates]
      exact ih _ (symbolKeyed_applyUpdate m u hm)

/-- The store states reachable through the mutation API of
`StockDataStore.ts`: the fresh empty store, snapshot application
(`setStocks`), and delta application (`updateStocksImmediate`, which is
also what a scheduled flush runs on the queued deltas). -/
inductive ReachableStore : StoreState → Prop where
  | init : ReachableStore initialStoreState
  | snapshot (st : StoreState) (l : List StockData) (now : Nat) :
      ReachableStore st → ReachableStore (setStocks l now st)
  | deltas (st : StoreState) (us : List StockUpdate) (now : Nat) :
      ReachableStore st → ReachableStore (updateStocksImmediate us now st)

/-- C10: in every reachable store state, every entity of the stocks map
is stored under its own symbol: `setStocks` keys each entity by its own
symbol, and `updateStocksImmediate` merges a delta only into the entry
at the delta's symbol, the merged entity carrying that same symbol. -/
theorem C10_reachable_stores_symbol_keyed (st : StoreState) (h : ReachableStore st) :
    ∀ k v, mget st.stocks k = some v → v.symbol = k := by
  induction h with
  | init =>
      intro k v hv
      simp [initialStoreState, mget] at hv
  | snapshot st l now _ _ => exact symbolKeyed_buildStockMap l
  | deltas st us now _ ih => exact symbolKeyed_applyUpdates st.stocks us ih

theorem C10_reachable_stores_symbol_keyed_witness :
    ReachableStore (setStocks [sampleStock "A" 1] 3 initialStoreState) ∧
    (sampleStock "A" 1).symbol = "A" :=
  ⟨ReachableStore.snapshot initialStoreState [sampleStock "A" 1] 3 ReachableStore.init,
    C10_reachable_stores_symbol_keyed
      (setStocks [sampleStock "A" 1] 3 initialStoreState)
      (ReachableStore.snapshot initialStoreState [sampleStock "A" 1] 3
        ReachableStore.init)
      "A" (sampleStock "A" 1) (by decide)⟩

inductive ServerMsg where
  | snapshot (stocks : List StockData) (timestamp : Nat)
  | update (deltas : List StockUpdate) (timestamp : Nat)
deriving DecidableEq

/-- One server-side session as the broadcaster sees it: the client id,
the messages successfully delivered to it in send order, whether its
`readyState` is `WebSocket.OPEN`, and a ghost flag recording whether the
accept-time snapshot `ws.send` succeeded (did not throw). -/
structure Session where
  sid : Nat
  inbox : List ServerMsg
  readyOpen : Bool
  snapSent : Bool
deriving DecidableEq

/-- The state of the Phase-3 WebSocket server (the `server/index.ts`
revision wired to `MarketSimulator` through `broadcastUpdate`): the
Entity Store generated once at startup, `wss.clients`, and
`connectionCount`. -/
structure ServerState where
  stocks : List StockData
  sessions : List Session
  connectionCount : Nat
deriving DecidableEq

/-- `accept` carries the outcome of the snapshot `ws.send` try/catch;
`tick` carries the broadcast deltas and the per-client outcome of the
update `client.send` try/catch; `closing` is a socket leaving the OPEN
readyState while still in `wss.clients` (terminate/shutdown paths);
`close` removes it. -/
inductive ServerEvent where
  | accept (ts : Nat) (sendOk : Bool)
  | tick (deltas : List StockUpdate) (ts : Nat) (sendFail : Nat → Bool)
  | closing (sid : Nat)
  | close (sid : Nat)

def initServer (stocks : List StockData) : ServerState :=
  { stocks := stocks, sessions := [], connectionCount := 0 }

/-- One broadcaster transition, per the Phase-3 `server/index.ts`.
`accept` is `wss.on('connection', ...)`: bump `connectionCount` and try
to send the full current Entity Store as one snapshot message inside the
handler; when the send throws, the error is caught and logged and the
session stays connected with nothing delivered. `tick` is
`broadcastUpdate(deltas)`: serialize one update message and send it to
every client whose `readyState === WebSocket.OPEN`, each send in its own
try/catch so one failure never affects the others. The market-simulator
start/stop wiring only gates when tick events occur. -/
def serverStep (s : ServerState) : ServerEvent → ServerState
  | .accept ts sendOk =>
      { s with
        connectionCount := s.connectionCount + 1
        sessions := s.sessions ++
          [{ sid := s.connectionCount + 1
             inbox := if sendOk then [ServerMsg.snapshot s.stocks ts] else []
             readyOpen := true
             snapSent := sendOk }] }
  | .tick deltas ts sendFail =>
      { s with sessions := s.sessions.map (fun c =>
          if c.readyOpen && !(sendFail c.sid) then
            { c with inbox := c.inbox ++ [ServerMsg.update deltas ts] }
          else c) }
  | .closing sid =>
      { s with sessions := s.sessions.map (fun c =>
          if c.sid = sid then { c with readyOpen := false } else c) }
  | .close sid => { s with sessions := s.sessions.filter (fun c => c.sid ≠ sid) }

def serverRun (s : ServerState) (es : List ServerEvent) : ServerState :=
  es.foldl serverStep s

/-- A session whose first received message is a snapshot. -/
def firstMsgIsSnapshot (c : Session) : Prop :=
  ∃ st ts, c.inbox.head? = some (ServerMsg.snapshot st ts)

theorem firstMsgIsSnapshot_append (c : Session) (msg : ServerMsg)
    (h : firstMsgIsSnapshot c) :
    firstMsgIsSnapshot { c with inbox := c.inbox ++ [msg] } := by
  obtain ⟨st, ts, hh⟩ := h
  cases hi : c.inbox with
  | nil => rw [hi] at hh; cases hh
  | cons a l =>
      rw [hi] at hh
      exact ⟨st, ts, by simpa using hh⟩

/-- A delta broadcast in the counterexample and witness below. -/
def updW : StockUpdate := { symbol := "A", price := some 2 }

/-- The session left by an accept whose snapshot send threw, after one
tick broadcast reached it. -/
def sessFailW : Session :=
  { sid := 1, inbox := [ServerMsg.update [updW] 6],
    readyOpen := true, snapSent := false }

/-- C9 counterexample: when the accept-time snapshot `ws.send` throws,
the handler catches and logs and the session stays connected with
nothing delivered; the next `broadcastUpdate` then reaches it first
(its `readyState` is still OPEN), so this session's first received
message is an update, not a snapshot. -/
theorem C9_failed_snapshot_send_update_first :
    (serverRun (initServer [sampleStock "A" 1])
        [ServerEvent.accept 5 false,
         ServerEvent.tick [updW] 6 (fun _ => false)]).sessions = [sessFailW] ∧
    ¬ firstMsgIsSnapshot sessFailW := by
  refine ⟨by decide, ?_⟩
  rintro ⟨st, ts, h⟩
  simp [sessFailW] at h

theorem serverStep_preserves_snapshot_first (s : ServerState) (e : ServerEvent)
    (h : ∀ c ∈ s.sessions, c.snapSent = true → firstMsgIsSnapshot c) :
    ∀ c ∈ (serverStep s e).sessions, c.snapSent = true → firstMsgIsSnapshot c := by
  cases e with
  | accept ts sendOk =>
      intro c hc hsnap
      rcases List.mem_append.mp hc with hc | hc
      · exact h c hc hsnap
      · rcases List.mem_singleton.mp hc with rfl
        refine ⟨s.stocks, ts, ?_⟩
        show (if sendOk then [ServerMsg.snapshot s.stocks ts] else []).head?
          = some (ServerMsg.snapshot s.stocks ts)
        have hs : sendOk = true := hsnap
        rw [hs]
        rfl
  | tick deltas ts sendFail =>
      intro c hc hsnap
      obtain ⟨c₀, hc₀, rfl⟩ := List.mem_map.mp hc
      by_cases hb : (c₀.readyOpen && !(sendFail c₀.sid)) = true
      · simp only [if_pos hb] at hsnap ⊢
        exact firstMsgIsSnapshot_append c₀ _ (h c₀ hc₀ hsnap)
      · simp only [if_neg hb] at hsnap ⊢
        exact h c₀ hc₀ hsnap
  | closing sid =>
      intro c hc hsnap
      obtain ⟨c₀, hc₀, rfl⟩ := List.mem_map.mp hc
      by_cases hb : c₀.sid = sid
      · simp only [if_pos hb] at hsnap ⊢
        obtain ⟨st, ts2, hh⟩ := h c₀ hc₀ hsnap
        exact ⟨st, ts2, hh⟩
      · simp only [if_neg hb] at hsnap ⊢
        exact h c₀ hc₀ hsnap
  | close sid =>
      intro c hc hsnap
      exact h c (List.mem_of_mem_filter hc) hsnap

/-- C9 (amended): for every interleaving of connection accepts, tick
broadcasts, readyState transitions, per-client send failures and
closes, every session whose accept-time snapshot send succeeded has a
snapshot as its first received message — the snapshot is sent
synchronously inside the connection handler, before any broadcast can
reach that session; a session whose snapshot send threw (caught and
logged) received nothing at accept and may receive an update first. -/
theorem C9_first_message_is_snapshot (stocks : List StockData)
    (es : List ServerEvent) :
    ∀ c ∈ (serverRun (initServer stocks) es).sessions,
      c.snapSent = true → firstMsgIsSnapshot c := by
  suffices h : ∀ (s : ServerState),
      (∀ c ∈ s.sessions, c.snapSent = true → firstMsgIsSnapshot c) →
      ∀ c ∈ (serverRun s es).sessions, c.snapSent = true → firstMsgIsSnapshot c by
    refine h (initServer stocks) ?_
    intro c hc
    cases hc
  induction es with
  | nil => exact fun s hs => hs
  | cons e rest ih =>
      intro s hs
      rw [serverRun, List.foldl_cons, ← serverRun]
      exact ih _ (serverStep_preserves_snapshot_first s e hs)

/-- The session left by a successful accept after one tick broadcast. -/
def sessOkW : Session :=
  { sid := 1,
    inbox := [ServerMsg.snapshot [sampleStock "A" 1] 5, ServerMsg.update [updW] 6],
    readyOpen := true, snapSent := true }

theorem C9_first_message_is_snapshot_witness :
    (sessOkW ∈ (serverRun (initServer [sampleStock "A" 1])
        [ServerEvent.accept 5 true,
         ServerEvent.tick [updW] 6 (fun _ => false)]).sessions) ∧
    sessOkW.snapSent = true ∧
    firstMsgIsSnapshot sessOkW :=
  ⟨by decide, rfl,
    C9_first_message_is_snapshot [sampleStock "A" 1]
      [ServerEvent.accept 5 true, ServerEvent.tick [updW] 6 (fun _ => false)]
      sessOkW (by decide) rfl⟩

/-- The swap `[all[i], all[j]] = [all[j], all[i]]` of `getRandomIndices`;
identity when an index is out of range, which never happens in the
source loop since `j = Math.floor(Math.random() * (i + 1)) ≤ i`. -/
def listSwap {α : Type} (l : List α) (i j : Nat) : List α :=
  if h : i < l.length ∧ j < l.length then
    (l.set i (l.get ⟨j, h.2⟩)).set j (l.get ⟨i, h.1⟩)
  else l

/-- The Fisher-Yates loop `for (let i = all.length - 1; i > 0; i--)`;
`jdraw i` is the value `Math.floor(Math.random() * (i + 1))` drawn at
loop index `i`. -/
def fisherYates (jdraw : Nat → Nat) : Nat → List Nat → List Nat
  | 0, l => l
  | i + 1, l => fisherYates jdraw i (listSwap l (i + 1) (jdraw (i + 1)))

/-- The `while (indices.size < count)` loop of `getRandomIndices`,
consuming a finite stream of pre-drawn `Math.floor(Math.random() * max)`
values; a `Set` preserves insertion order, so adding an unseen value
appends it. `none` when the stream is exhausted before the set is full
(the source would keep drawing). -/
def fillIndices (count : Nat) : List Nat → List Nat → Option (List Nat)
  | acc, [] => if count ≤ acc.length then some acc else none
  | acc, d :: rest =>
      if count ≤ acc.length then some acc
      else fillIndices count (if d ∈ acc then acc else acc ++ [d]) rest

/-- `getRandomIndices(max, count)`: when `count > max / 2`, shuffle
`[0, max)` by Fisher-Yates and slice the first `count`; otherwise draw
random indices into a set until it holds `count` of them. -/
def getRandomIndices (jdraw : Nat → Nat) (setDraws : List Nat)
    (max count : Nat) : Option (List Nat) :=
  if max < 2 * count then
    some ((fisherYates jdraw (max - 1) (List.range max)).take count)
  else fillIndices count [] setDraws

theorem cons_set_perm {α : Type} (a : α) (t : List α) :
    ∀ (m : Nat) (h : m < t.length),
      List.Perm (t.get ⟨m, h⟩ :: t.set m a) (a :: t) := by
  induction t with
  | nil => intro m h; simp at h
  | cons b t' ih =>
      intro m h
      cases m with
      | zero => exact List.Perm.swap a b t'
      | succ k =>
          have hk : k < t'.length := by simpa using h
          have step := ih k hk
          show List.Perm (t'.get ⟨k, hk⟩ :: b :: t'.set k a) (a :: b :: t')
          exact ((List.Perm.swap b (t'.get ⟨k, hk⟩) (t'.set k a)).trans
            (step.cons b)).trans (List.Perm.swap a b t')

theorem set_set_swap_perm {α : Type} :
    ∀ (l : List α) (i j : Nat) (hi : i < l.length) (hj : j < l.length),
      List.Perm ((l.set i (l.get ⟨j, hj⟩)).set j (l.get ⟨i, hi⟩)) l := by
  intro l
  induction l with
  | nil => intro i j hi _; simp at hi
  | cons b t ih =>
      intro i j hi hj
      cases i with
      | zero =>
          cases j with
          | zero => exact List.Perm.refl _
          | succ m =>
              have hm : m < t.length := by simpa using hj
              show List.Perm (t.get ⟨m, hm⟩ :: t.set m b) (b :: t)
              exact cons_set_perm b t m hm
      | succ k =>
          have hk : k < t.length := by simpa using hi
          cases j with
          | zero =>
              show List.Perm (t.get ⟨k, hk⟩ :: t.set k b) (b :: t)
              exact cons_set_perm b t k hk
          | succ m =>
              have hm : m < t.length := by simpa using hj
              show List.Perm
                (b :: (t.set k (t.get ⟨m, hm⟩)).set m (t.get ⟨k, hk⟩)) (b :: t)
              exact (ih k m hk hm).cons b

theorem listSwap_perm {α : Type} (l : List α) (i j : Nat) :
    List.Perm (listSwap l i j) l := by
  rw [listSwap]
  split
  · next h => exact set_set_swap_perm l i j h.1 h.2
  · exact List.Perm.refl l

theorem fisherYates_perm (jdraw : Nat → Nat) :
    ∀ (i : Nat) (l : List Nat), List.Perm (fisherYates jdraw i l) l := by
  intro i
  induction i with
  | zero => intro l; exact List.Perm.refl l
  | succ i ih =>
      intro l
      exact (ih _).trans (listSwap_perm l (i + 1) (jdraw (i + 1)))

theorem fillIndices_spec (count : Nat) :
    ∀ (setDraws acc res : List Nat),
      fillIndices count acc setDraws = some res →
      acc.length ≤ count → acc.Nodup →
      res.length = count ∧ res.Nodup ∧ (∀ x ∈ res, x ∈ acc ∨ x ∈ setDraws) := by
  intro setDraws
  induction setDraws with
  | nil =>
      intro acc res h hlen hnd
      rw [fillIndices] at h
      split at h
      · next hc =>
          cases h
          exact ⟨Nat.le_antisymm hlen hc, hnd, fun x hx => Or.inl hx⟩
      · cases h
  | cons d rest ih =>
      intro acc res h hlen hnd
      rw [fillIndices] at h
      split at h
      · next hc =>
          cases h
          exact ⟨Nat.le_antisymm hlen hc, hnd, fun x hx => Or.inl hx⟩
      · next hc =>
          have hlt : acc.length < count := Nat.lt_of_not_le hc
          by_cases hd : d ∈ acc
          · rw [if_pos hd] at h
            obtain ⟨h1, h2, h3⟩ := ih acc res h hlen hnd
            exact ⟨h1, h2, fun x hx => (h3 x hx).imp id (List.mem_cons_of_mem d)⟩
          · rw [if_neg hd] at h
            have hnd' : (acc ++ [d]).Nodup := by
              refine List.Nodup.append hnd (List.nodup_singleton d) ?_
              intro x hx hxd
              rw [List.mem_singleton] at hxd
              exact hd (hxd ▸ hx)
            have hlen' : (acc ++ [d]).length ≤ count := by
              rw [List.length_append, List.length_singleton]
              omega
            obtain ⟨h1, h2, h3⟩ := ih (acc ++ [d]) res h hlen' hnd'
            refine ⟨h1, h2, fun x hx => ?_⟩
            rcases h3 x hx with hx' | hx'
            · rcases List.mem_append.mp hx' with hx'' | hx''
              · exact Or.inl hx''
              · rw [List.mem_singleton] at hx''
                exact Or.inr (hx'' ▸ List.mem_cons_self d rest)
            · exact Or.inr (List.mem_cons_of_mem d hx')

/-- Both branches of `getRandomIndices` return exactly `count` pairwise
distinct indices, all below `max`. -/
theorem getRandomIndices_spec (jdraw : Nat → Nat) (setDraws : List Nat)
    (max count : Nat) (res : List Nat)
    (hres : getRandomIndices jdraw setDraws max count = some res)
    (hcount : count ≤ max) (hdraws : ∀ d ∈ setDraws, d < max) :
    res.length = count ∧ res.Nodup ∧ ∀ x ∈ res, x < max := by
  rw [getRandomIndices] at hres
  split at hres
  · cases hres
    have hperm : List.Perm (fisherYates jdraw (max - 1) (List.range max))
        (List.range max) := fisherYates_perm jdraw (max - 1) (List.range max)
    refine ⟨?_, ?_, ?_⟩
    · rw [List.length_take, hperm.length_eq, List.length_range]
      exact Nat.min_eq_left hcount
    · exact (List.take_sublist _ _).nodup
        (hperm.nodup_iff.mpr (List.nodup_range max))
    · intro x hx
      have hx' := List.take_subset _ _ hx
      exact List.mem_range.mp (hperm.mem_iff.mp hx')
  · obtain ⟨h1, h2, h3⟩ := fillIndices_spec count setDraws [] res hres
      (Nat.zero_le count) List.nodup_nil
    refine ⟨h1, h2, fun x hx => ?_⟩
    rcases h3 x hx with hx' | hx'
    · cases hx'
    · exact hdraws x hx'

/-- `MarketSimulatorConfig` of the market simulator. -/
structure MarketSimulatorConfig where
  updateIntervalMs : ℚ
  updatePercentage : ℚ
  volatilityMultiplier : ℚ
deriving DecidableEq

def DEFAULT_CONFIG : MarketSimulatorConfig :=
  { updateIntervalMs := 200, updatePercentage := 1/10, volatilityMultiplier := 1 }

/-- JavaScript `a || b` on an optional number: `undefined` and `0` are
falsy and fall through to the default. -/
def jsOrElse (x : Option ℚ) (d : ℚ) : ℚ :=
  match x with
  | some v => if v = 0 then d else v
  | none => d

/-- The random inputs one `simulateStockUpdate` call consumes: `z` is
the Box-Muller standard-normal sample the source computes from two
`Math.random()` draws via `sqrt`, `log` and `cos` (transcendental over
floats, abstracted here as the sampled value itself), and `uVol` is the
uniform `Math.random()` draw feeding the volume perturbation. -/
structure RandDraw where
  z : ℚ
  uVol : ℚ
deriving DecidableEq

/-- `simulateStockUpdate(stock)`: price random walk scaled by the
stock's volatility (`stock.volatility || 0.02`) and the config
multiplier, percent change computed against `stock.openPrice ||
stock.price`, volume perturbed by ±5% and floored at zero, momentum
nudged by the price change and clamped to [0,100]. `tickScale` stands
for the irrational constant `Math.sqrt(1/252/6.5/3600)`. Returns the
delta (all four fast-changing fields present) together with the mutated
stock — the source mutates the array entry in place. (Rational division
by zero yields 0 where JS would yield ±Infinity; the properties proved
below do not depend on the numeric values.) -/
def simulateStockUpdate (tickScale volMult : ℚ) (d : RandDraw)
    (stock : StockData) : StockUpdate × StockData :=
  let volatility := jsOrElse stock.volatility (1/50) * volMult
  let priceChangePercent := d.z * volatility * tickScale
  let newPrice := stock.price * (1 + priceChangePercent)
  let openPrice := jsOrElse stock.openPrice stock.price
  let changePercent := ((newPrice - openPrice) / openPrice) * 100
  let volumeChange := (d.uVol - 1/2) * (1/10)
  let newVolume := max 0 (stock.volume * (1 + volumeChange))
  let momentumAdjustment := priceChangePercent * 100
  let newMomentum := max 0 (min 100 (stock.momentumScore + momentumAdjustment))
  ({ symbol := stock.symbol, price := some newPrice,
     changePercent := some changePercent, volume := some newVolume,
     momentumScore := some newMomentum },
   { stock with
     price := newPrice
     changePercent := changePercent
     volume := newVolume
     momentumScore := newMomentum })

/-- `Math.floor(this.stocks.length * this.config.updatePercentage)`. -/
def numToUpdate (n : Nat) (pct : ℚ) : Nat := (⌊(n : ℚ) * pct⌋).toNat

/-- The `for (const index of indicesToUpdate)` loop of `generateUpdate`:
look up the stock at each sampled index, simulate its update (mutating
the array entry in place), and collect the delta. `rdraws k` supplies
the random inputs of the k-th iteration; the out-of-range case cannot
occur for indices produced by `getRandomIndices`. -/
def applyTicks (tickScale volMult : ℚ) (rdraws : Nat → RandDraw) :
    List Nat → Nat → List StockUpdate → List StockData →
    List StockUpdate × List StockData
  | [], _, ds, stks => (ds, stks)
  | i :: rest, k, ds, stks =>
      match stks[i]? with
      | some stock =>
          applyTicks tickScale volMult rdraws rest (k + 1)
            (ds ++ [(simulateStockUpdate tickScale volMult (rdraws k) stock).1])
            (stks.set i (simulateStockUpdate tickScale volMult (rdraws k) stock).2)
      | none => applyTicks tickScale volMult rdraws rest (k + 1) ds stks

/-- `generateUpdate()`: sample `floor(N * updatePercentage)` distinct
indices and produce one delta per sampled stock (the `if (delta)` guard
in the source is vacuous — `simulateStockUpdate` never returns null). -/
def generateUpdate (tickScale : ℚ) (cfg : MarketSimulatorConfig)
    (jdraw : Nat → Nat) (setDraws : List Nat) (rdraws : Nat → RandDraw)
    (stocks : List StockData) : Option (List StockUpdate × List StockData) :=
  match getRandomIndices jdraw setDraws stocks.length
      (numToUpdate stocks.length cfg.updatePercentage) with
  | some indices =>
      some (applyTicks tickScale cfg.volatilityMultiplier rdraws indices 0 [] stocks)
  | none => none

/-- The symbol column of the stocks array. -/
def symsOf (stks : List StockData) : List String := stks.map StockData.symbol

theorem symsOf_set :
    ∀ (stks : List StockData) (i : Nat) (v stock : StockData),
      stks[i]? = some stock → v.symbol = stock.symbol →
      symsOf (stks.set i v) = symsOf stks := by
  intro stks
  induction stks with
  | nil => intro i v stock h _; simp at h
  | cons b t ih =>
      intro i v stock h hs
      cases i with
      | zero =>
          have hb : b = stock := by simpa using h
          subst hb
          simp [symsOf, hs]
      | succ m =>
          have ht : t[m]? = some stock := by simpa using h
          show symsOf (b :: t.set m v) = symsOf (b :: t)
          have ihm := ih m v stock ht hs
          simp only [symsOf, List.map_cons] at ihm ⊢
          rw [ihm]

theorem symAtD_of_getElem (stks : List StockData) (i : Nat) (stock : StockData)
    (hi : stks[i]? = some stock) : (symsOf stks).getD i "" = stock.symbol := by
  rw [List.getD_eq_getElem?_getD, symsOf, List.getElem?_map, hi]
  rfl

/-- The tick loop: the stocks array keeps its symbol column; the deltas
collected are, in order, one per sampled index carrying the symbol of
the stock at that index; unsampled positions are untouched. -/
theorem applyTicks_spec (tickScale volMult : ℚ) (rdraws : Nat → RandDraw) :
    ∀ (idxs : List Nat) (k : Nat) (ds : List StockUpdate) (stks : List StockData),
      (∀ i ∈ idxs, i < stks.length) →
      symsOf (applyTicks tickScale volMult rdraws idxs k ds stks).2 = symsOf stks ∧
      (applyTicks tickScale volMult rdraws idxs k ds stks).1.map StockUpdate.symbol
        = ds.map StockUpdate.symbol
            ++ idxs.map (fun i => (symsOf stks).getD i "") ∧
      (∀ j, j ∉ idxs →
        (applyTicks tickScale volMult rdraws idxs k ds stks).2[j]? = stks[j]?) := by
  intro idxs
  induction idxs with
  | nil =>
      intro k ds stks _
      exact ⟨rfl, by simp [applyTicks], fun j _ => rfl⟩
  | cons i rest ih =>
      intro k ds stks hlen
      have hi : i < stks.length := hlen i (List.mem_cons_self _ _)
      have hstock : stks[i]? = some stks[i] := List.getElem?_eq_getElem hi
      have heq : applyTicks tickScale volMult rdraws (i :: rest) k ds stks
          = applyTicks tickScale volMult rdraws rest (k + 1)
              (ds ++ [(simulateStockUpdate tickScale volMult (rdraws k) stks[i]).1])
              (stks.set i
                (simulateStockUpdate tickScale volMult (rdraws k) stks[i]).2) := by
        simp only [applyTicks, hstock]
      have hsymset : symsOf (stks.set i
          (simulateStockUpdate tickScale volMult (rdraws k) stks[i]).2)
          = symsOf stks := symsOf_set stks i _ stks[i] hstock rfl
      have hlen' : ∀ i' ∈ rest, i' < (stks.set i
          (simulateStockUpdate tickScale volMult (rdraws k) stks[i]).2).length := by
        intro i' hi'
        rw [List.length_set]
        exact hlen i' (List.mem_cons_of_mem _ hi')
      obtain ⟨ih1, ih2, ih3⟩ := ih (k + 1)
        (ds ++ [(simulateStockUpdate tickScale volMult (rdraws k) stks[i]).1])
        (stks.set i (simulateStockUpdate tickScale volMult (rdraws k) stks[i]).2)
        hlen'
      refine ⟨?_, ?_, ?_⟩
      · rw [heq, ih1, hsymset]
      · rw [heq, ih2, hsymset]
        simp only [List.map_append, List.map_cons, List.map_nil,
          List.append_assoc, List.singleton_append, List.nil_append,
          symAtD_of_getElem stks i stks[i] hstock]
        rfl
      · intro j hj
        simp only [List.mem_cons, not_or] at hj
        rw [heq, ih3 j hj.2, List.getElem?_set_ne (fun hh => hj.1 hh.symm)]

/-- C8: one generator tick over a stocks array with pairwise-distinct
symbols samples `count = floor(N * updatePercentage)` pairwise-distinct
indices (whichever branch of `getRandomIndices` runs), produces exactly
`count` deltas — in order, one per sampled index, each carrying the
symbol of the stock at that index, hence pairwise-distinct delta symbols
and no delta for an unsampled stock — and leaves every unsampled array
position exactly unchanged; with N = 2000 and an update fraction of 0.1
the tick contains exactly 200 deltas. -/
theorem C8_generator_tick (tickScale : ℚ) (cfg : MarketSimulatorConfig)
    (jdraw : Nat → Nat) (setDraws : List Nat) (rdraws : Nat → RandDraw)
    (stocks : List StockData) (count : Nat) (indices : List Nat)
    (hnd : (symsOf stocks).Nodup)
    (hcount : count = numToUpdate stocks.length cfg.updatePercentage)
    (hpct : cfg.updatePercentage ≤ 1)
    (hdraws : ∀ d ∈ setDraws, d < stocks.length)
    (hidx : getRandomIndices jdraw setDraws stocks.length count = some indices) :
    generateUpdate tickScale cfg jdraw setDraws rdraws stocks
      = some (applyTicks tickScale cfg.volatilityMultiplier rdraws indices 0 []
          stocks) ∧
    indices.length = count ∧
    indices.Nodup ∧
    (∀ i ∈ indices, i < stocks.length) ∧
    (applyTicks tickScale cfg.volatilityMultiplier rdraws indices 0 []
        stocks).1.length = count ∧
    (applyTicks tickScale cfg.volatilityMultiplier rdraws indices 0 []
        stocks).1.map StockUpdate.symbol
      = indices.map (fun i => (symsOf stocks).getD i "") ∧
    ((applyTicks tickScale cfg.volatilityMultiplier rdraws indices 0 []
        stocks).1.map StockUpdate.symbol).Nodup ∧
    (∀ j, j ∉ indices →
      (applyTicks tickScale cfg.volatilityMultiplier rdraws indices 0 []
          stocks).2[j]? = stocks[j]?) ∧
    numToUpdate 2000 (1/10) = 200 := by
  have hcle : count ≤ stocks.length := by
    rw [hcount, numToUpdate]
    refine Int.toNat_le.mpr ?_
    calc ⌊(stocks.length : ℚ) * cfg.updatePercentage⌋
        ≤ ⌊(stocks.length : ℚ)⌋ :=
          Int.floor_le_floor (mul_le_of_le_one_right (Nat.cast_nonneg _) hpct)
      _ = (stocks.length : ℤ) := Int.floor_natCast _
  obtain ⟨hlen, hnodup, hbound⟩ :=
    getRandomIndices_spec jdraw setDraws stocks.length count indices hidx hcle hdraws
  have hgen : generateUpdate tickScale cfg jdraw setDraws rdraws stocks
      = some (applyTicks tickScale cfg.volatilityMultiplier rdraws indices 0 []
          stocks) := by
    simp only [generateUpdate, ← hcount, hidx]
  obtain ⟨hsym, hdeltas, hframe⟩ :=
    applyTicks_spec tickScale cfg.volatilityMultiplier rdraws indices 0 [] stocks
      hbound
  rw [List.map_nil, List.nil_append] at hdeltas
  have hdlen : (applyTicks tickScale cfg.volatilityMultiplier rdraws indices 0 []
      stocks).1.length = count := by
    have := congrArg List.length hdeltas
    rw [List.length_map, List.length_map] at this
    rw [this, hlen]
  have hdnodup : ((applyTicks tickScale cfg.volatilityMultiplier rdraws indices 0 []
      stocks).1.map StockUpdate.symbol).Nodup := by
    rw [hdeltas]
    refine List.Nodup.map_on ?_ hnodup
    intro x hx y hy hf
    have hxl : x < (symsOf stocks).length := by
      rw [symsOf, List.length_map]; exact hbound x hx
    have hyl : y < (symsOf stocks).length := by
      rw [symsOf, List.length_map]; exact hbound y hy
    have hx2 : (symsOf stocks)[x]? = some ((symsOf stocks)[x]) :=
      List.getElem?_eq_getElem hxl
    have hy2 : (symsOf stocks)[y]? = some ((symsOf stocks)[y]) :=
      List.getElem?_eq_getElem hyl
    have hgx : (symsOf stocks).getD x "" = (symsOf stocks)[x] := by
      rw [List.getD_eq_getElem?_getD, hx2]; rfl
    have hgy : (symsOf stocks).getD y "" = (symsOf stocks)[y] := by
      rw [List.getD_eq_getElem?_getD, hy2]; rfl
    refine List.getElem?_inj hxl hnd ?_
    rw [hx2, hy2, ← hgx, ← hgy, hf]
  have hconc : numToUpdate 2000 (1/10) = 200 := by
    have h2000 : ((2000 : Nat) : ℚ) * (1/10) = ((200 : Nat) : ℚ) := by norm_num
    rw [numToUpdate, h2000, Int.floor_natCast]
    rfl
  exact ⟨hgen, hlen, hnodup, hbound, hdlen, hdeltas, hdnodup, hframe, hconc⟩

/-- A concrete simulator config for evaluating the tick theorem. -/
def cfgW : MarketSimulatorConfig :=
  { updateIntervalMs := 200, updatePercentage := 1, volatilityMultiplier := 1 }

theorem C8_generator_tick_witness :
    (symsOf [sampleStock "A" 1, sampleStock "B" 2]).Nodup ∧
    getRandomIndices (fun _ => 0) [] 2 2 = some [1, 0] ∧
    generateUpdate 0 cfgW (fun _ => 0) [] (fun _ => ⟨0, 0⟩)
        [sampleStock "A" 1, sampleStock "B" 2]
      = some (applyTicks 0 cfgW.volatilityMultiplier (fun _ => ⟨0, 0⟩) [1, 0] 0 []
          [sampleStock "A" 1, sampleStock "B" 2]) :=
  ⟨by decide, by decide,
    (C8_generator_tick 0 cfgW (fun _ => 0) [] (fun _ => ⟨0, 0⟩)
      [sampleStock "A" 1, sampleStock "B" 2] 2 [1, 0]
      (by decide) (by simp [numToUpdate, cfgW]) (by decide) (by decide)
      (by decide)).1⟩
